import Mathlib

set_option maxHeartbeats 1000000

/-!
Shallow embedding of the multi-source publication reconciliation engine:
`src/lib/publicationService.ts` (identity resolver, name matcher, fan-out
orchestrator), `src/lib/metricsEngine.ts` (bibliometrics) and the
citation-rate enrichment step of `src/app/page.tsx`.

JavaScript `Map` objects are embedded as insertion-ordered association
lists (`mapSet` overwrites in place, `values()` is `map Prod.snd`),
JavaScript `Set` objects as insertion-ordered duplicate-free lists,
JavaScript numbers carrying citation counts as `Int` and citation rates
as `ℚ`, and optional fields as `Option`.
-/

namespace ProjectScrubs

/-- `a ?? b` (JS nullish coalescing) on optional values. -/
def orOpt {α : Type} : Option α → Option α → Option α
  | some a, _ => some a
  | none, b => b

/-- `Map.get`: first entry with the given key. -/
def mapGet {κ α : Type} [DecidableEq κ] (k : κ) : List (κ × α) → Option α
  | [] => none
  | (k', v) :: rest => if k' = k then some v else mapGet k rest

/-- `Map.set`: overwrite in place if the key exists, else append (insertion order). -/
def mapSet {κ α : Type} [DecidableEq κ] (k : κ) (v : α) : List (κ × α) → List (κ × α)
  | [] => [(k, v)]
  | (k', v') :: rest => if k' = k then (k, v) :: rest else (k', v') :: mapSet k v rest

/-- `Set.add`: append if absent (insertion order, first occurrence kept). -/
def setAdd {α : Type} [DecidableEq α] (l : List α) (a : α) : List α :=
  if a ∈ l then l else l ++ [a]

/-- `new Set(iterable)` followed by `Array.from`: dedup keeping first occurrences. -/
def setOfList {α : Type} [DecidableEq α] (l : List α) : List α :=
  l.foldl setAdd []

/-- Object spread `{...base, ...upd}`: existing keys updated in place, new keys appended. -/
def mapMergeRight {κ α : Type} [DecidableEq κ] (base upd : List (κ × α)) : List (κ × α) :=
  upd.foldl (fun acc kv => mapSet kv.1 kv.2 acc) base

/-- `PublicationSource` from publicationService.ts. -/
inductive PublicationSource where
  | pubMed
  | scopus
  | webOfScience
deriving DecidableEq, Repr

/-- `PublicationType` from publicationService.ts. -/
inductive PublicationType where
  | primaryResearch
  | review
deriving DecidableEq, Repr

/-- The `Publication` record type of publicationService.ts. -/
structure Publication where
  id : String
  title : String
  authors : String
  journal : String
  date : String
  citationCount : Int
  aiPublicationType : PublicationType
  abstract : String
  source : PublicationSource
  sources : Option (List PublicationSource) := none
  doi : Option String := none
  url : Option String := none
  sourceUrls : List (PublicationSource × String) := []
  rcr : Option ℚ := none
deriving DecidableEq, Repr

/-- JS `String.prototype.trim` (whitespace at both ends). -/
def trimWs (cs : List Char) : List Char :=
  ((cs.dropWhile Char.isWhitespace).reverse.dropWhile Char.isWhitespace).reverse

/-- `normalizeDoi`: `doi ? doi.trim().toLowerCase() : ""` ("" is falsy in JS). -/
def normalizeDoi : Option String → String
  | some d => if d = "" then "" else ⟨(trimWs d.data).map Char.toLower⟩
  | none => ""

/-- Character class `[a-z0-9]` of the normalization regexes. -/
def isAlnumLower (c : Char) : Bool :=
  decide (('a' ≤ c ∧ c ≤ 'z') ∨ ('0' ≤ c ∧ c ≤ '9'))

/-- `normalizeTitle`: lowercase, then delete every character outside `[a-z0-9]`
(`.replace(/[^a-z0-9]+/g, "")`). -/
def normalizeTitle (title : String) : String :=
  ⟨(title.data.map Char.toLower).filter isAlnumLower⟩

/-- `buildDoiUrl`: canonical `https://doi.org/` link when the DOI normalizes non-empty. -/
def buildDoiUrl (doi : Option String) : Option String :=
  if normalizeDoi doi = "" then none else some ("https://doi.org/" ++ normalizeDoi doi)

/-- The `doiKey` computed at the top of `upsert`. -/
def doiKeyOf (p : Publication) : String := normalizeDoi p.doi

/-- The `titleKey` computed at the top of `upsert`. -/
def titleKeyOf (p : Publication) : String := normalizeTitle p.title

/-- `sourcePriority` in `mergePublications`. -/
def sourcePriority : List PublicationSource :=
  [.scopus, .webOfScience, .pubMed]

/-- The three maps `merged`, `byDoi`, `byTitle` private to one `mergePublications` call. -/
structure MergeState where
  merged : List (String × Publication)
  byDoi : List (String × Publication)
  byTitle : List (String × Publication)
deriving DecidableEq, Repr

/-- The empty maps at the start of `mergePublications`. -/
def initMergeState : MergeState := ⟨[], [], []⟩

/-- `publication.url ? { [publication.source]: publication.url } : {}` ("" is falsy). -/
def urlEntry (p : Publication) : List (PublicationSource × String) :=
  match p.url with
  | some u => if u = "" then [] else [(p.source, u)]
  | none => []

/-- `new Set(publication.sources ?? [publication.source])` as an ordered list. -/
def incomingSources (p : Publication) : List PublicationSource :=
  setOfList (p.sources.getD [p.source])

/-- The `sourceUrls` object built for the incoming record inside `upsert`. -/
def incomingSourceUrls (p : Publication) : List (PublicationSource × String) :=
  mapMergeRight p.sourceUrls (urlEntry p)

/-- The canonical record created by `upsert` when no existing record is found. -/
def freshCanonical (p : Publication) : Publication :=
  { p with
    sources := some (incomingSources p)
    url := orOpt (buildDoiUrl p.doi) p.url
    sourceUrls := incomingSourceUrls p }

/-- The `updated` record built by `upsert` when the incoming record merges into
`existing`: only `doi`, `url`, `citationCount`, `rcr`, `source`, `sources` and
`sourceUrls` are overridden on the spread of `existing`. -/
def mergeCanonical (existing p : Publication) : Publication :=
  let existingSources := setOfList (existing.sources.getD [existing.source])
  let unionSources := (incomingSources p).foldl setAdd existingSources
  let mergedDoi := if normalizeDoi existing.doi ≠ "" then existing.doi else p.doi
  let mergedUrl := orOpt (buildDoiUrl mergedDoi) (orOpt existing.url p.url)
  let selectedSource := (sourcePriority.find? (fun s => decide (s ∈ unionSources))).getD existing.source
  { existing with
    doi := mergedDoi
    url := mergedUrl
    citationCount := max existing.citationCount p.citationCount
    rcr := orOpt existing.rcr p.rcr
    source := selectedSource
    sources := some unionSources
    sourceUrls := mapMergeRight existing.sourceUrls (incomingSourceUrls p) }

/-- The `existing` lookup of `upsert`:
`(doiKey ? byDoi.get(doiKey) : undefined) ?? (titleKey ? byTitle.get(titleKey) : undefined)`. -/
def lookupExisting (st : MergeState) (p : Publication) : Option Publication :=
  orOpt (if doiKeyOf p ≠ "" then mapGet (doiKeyOf p) st.byDoi else none)
        (if titleKeyOf p ≠ "" then mapGet (titleKeyOf p) st.byTitle else none)

/-- The key `doiKey || titleKey` under which `upsert` writes the `merged` map. -/
def primaryKeyOf (p : Publication) : String :=
  if doiKeyOf p ≠ "" then doiKeyOf p else titleKeyOf p

/-- The map writes shared by both branches of `upsert`: `merged.set(doiKey || titleKey, c)`,
`byDoi.set(doiKey, c)` when `doiKey` is non-empty, `byTitle.set(titleKey, c)` when
`titleKey` is non-empty. -/
def storeCanonical (st : MergeState) (p canonical : Publication) : MergeState :=
  { merged := mapSet (primaryKeyOf p) canonical st.merged
    byDoi := if doiKeyOf p ≠ "" then mapSet (doiKeyOf p) canonical st.byDoi else st.byDoi
    byTitle := if titleKeyOf p ≠ "" then mapSet (titleKeyOf p) canonical st.byTitle else st.byTitle }

/-- `upsert` from `mergePublications`. -/
def upsert (st : MergeState) (p : Publication) : MergeState :=
  if doiKeyOf p = "" ∧ titleKeyOf p = "" then st
  else
    match lookupExisting st p with
    | none => storeCanonical st p (freshCanonical p)
    | some existing => storeCanonical st p (mergeCanonical existing p)

/-- `mergePublications`: fold the PubMed list, then the Scopus list, then the
Web of Science list through `upsert`, and return `Array.from(merged.values())`. -/
def mergePublications (pubmedPublications scopusPublications wosPublications : List Publication) :
    List Publication :=
  let st1 := pubmedPublications.foldl upsert initMergeState
  let st2 := scopusPublications.foldl upsert st1
  let st3 := wosPublications.foldl upsert st2
  st3.merged.map Prod.snd

/-!  Bibliometrics: `src/lib/metricsEngine.ts`. -/

/-- Insert into a descending-sorted list, after all entries with a count `≥` the
new one (so that earlier input records stay in front of later equal-count ones). -/
def insertDesc (p : Publication) : List Publication → List Publication
  | [] => [p]
  | q :: qs => if q.citationCount ≤ p.citationCount then p :: q :: qs else q :: insertDesc p qs

/-- `[...papers].sort((a, b) => b.citationCount - a.citationCount)`: the stable
descending sort by citation count (ES2019 `Array.prototype.sort` is stable). -/
def sortByCitationsDesc : List Publication → List Publication
  | [] => []
  | p :: ps => insertDesc p (sortByCitationsDesc ps)

/-- The scan loop of `calculateHIndex`: while `sorted[i].citationCount >= i + 1`
advance `hIndex` to `i + 1`, and break at the first failing rank. -/
def hIndexScan : List Publication → Nat → Nat
  | [], i => i
  | p :: ps, i => if ((i : Int) + 1) ≤ p.citationCount then hIndexScan ps (i + 1) else i

/-- `MetricsEngine.calculateHIndex`. -/
def calculateHIndex (papers : List Publication) : Nat :=
  hIndexScan (sortByCitationsDesc papers) 0

/-- `MetricsEngine.calculateWeightedRCR`:
`papers.reduce((total, paper) => total + (paper.rcr ?? 0), 0)`. -/
def calculateWeightedRCR (papers : List Publication) : ℚ :=
  papers.foldl (fun total paper => total + paper.rcr.getD 0) 0

/-!  Name matcher: `normalizeName` / `extractNameParts` / `parseAuthorForMatching`
/ `includesAuthorName` from publicationService.ts, embedded over character lists. -/

/-- `.replace(/[^a-z0-9]+/g, " ")` on an already lowercased character list: each
maximal run of characters outside `[a-z0-9]` becomes one space.  The flag records
whether the current position continues such a run. -/
def collapseRuns : List Char → Bool → List Char
  | [], _ => []
  | c :: cs, inRun =>
    if isAlnumLower c then c :: collapseRuns cs false
    else if inRun then collapseRuns cs true
    else ' ' :: collapseRuns cs true

/-- `.trim()` on the collapsed text (its only boundary whitespace is `' '`). -/
def trimSpaces (cs : List Char) : List Char :=
  ((cs.dropWhile (fun c => decide (c = ' '))).reverse.dropWhile (fun c => decide (c = ' '))).reverse

/-- `normalizeName` on a character list: lowercase, collapse non-alphanumeric runs
to a single space, trim. -/
def normalizeNameL (cs : List Char) : List Char :=
  trimSpaces (collapseRuns (cs.map Char.toLower) false)

/-- `normalizeName` from publicationService.ts. -/
def normalizeName (value : String) : String := ⟨normalizeNameL value.data⟩

/-- `.split(" ").filter(Boolean)`: split on single spaces dropping empty pieces. -/
def splitSpaces : List Char → List Char → List (List Char)
  | [], acc => if acc = [] then [] else [acc.reverse]
  | c :: cs, acc =>
    if c = ' ' then (if acc = [] then splitSpaces cs [] else acc.reverse :: splitSpaces cs [])
    else splitSpaces cs (c :: acc)

/-- The token list `normalizeName(value).split(" ").filter(Boolean)`. -/
def nameTokens (cs : List Char) : List (List Char) :=
  splitSpaces (normalizeNameL cs) []

/-- Result shape of `extractNameParts`. -/
structure NameParts where
  parts : List (List Char)
  last : Option (List Char)
  first : Option (List Char)
  initial : Option Char
deriving DecidableEq, Repr

/-- `extractNameParts` from publicationService.ts. -/
def extractNameParts (value : String) : NameParts :=
  let parts := nameTokens value.data
  { parts := parts
    last := parts.getLast?
    first := parts.head?
    initial := (parts.head?.getD []).head? }

/-- `.split(",")`: every comma-separated segment, empty segments kept. -/
def splitOnComma : List Char → List Char → List (List Char)
  | [], acc => [acc.reverse]
  | c :: cs, acc => if c = ',' then acc.reverse :: splitOnComma cs [] else splitOnComma cs (c :: acc)

/-- `.join(" ")` on the residual comma segments. -/
def joinSpace : List (List Char) → List Char
  | [] => []
  | [s] => s
  | s :: rest => s ++ ' ' :: joinSpace rest

/-- Result shape of `parseAuthorForMatching`. -/
structure ParsedAuthor where
  last : Option (List Char)
  first : Option (List Char)
  initial : Option Char
deriving DecidableEq, Repr

/-- `parseAuthorForMatching` from publicationService.ts. -/
def parseAuthorForMatching (author : String) : ParsedAuthor :=
  let trimmed := trimWs author.data
  if trimmed = [] then ⟨none, none, none⟩
  else if ',' ∈ trimmed then
    match splitOnComma trimmed [] with
    | [] => ⟨none, none, none⟩
    | lastPart :: rest =>
      let last := normalizeNameL lastPart
      let firstPart := trimWs (joinSpace rest)
      let firstTokens := splitSpaces (normalizeNameL firstPart) []
      ⟨if last = [] then none else some last, firstTokens.head?,
        (firstTokens.head?.getD []).head?⟩
  else
    match splitSpaces (normalizeNameL trimmed) [] with
    | [] => ⟨none, none, none⟩
    | [p0] => ⟨some p0, none, p0.head?⟩
    | [p0, p1] =>
      if p1.length = 1 then ⟨some p0, none, p1.head?⟩
      else ⟨some p1, some p0, p0.head?⟩
    | parts => ⟨some (parts.getLast?.getD []), some (parts.head?.getD []),
        (parts.head?.getD []).head?⟩

/-- `pattern` begins the list `hay` (used for the substring check). -/
def startsWithChars : List Char → List Char → Bool
  | _, [] => true
  | [], _ :: _ => false
  | c :: cs, p :: ps => decide (c = p) && startsWithChars cs ps

/-- JS `String.prototype.includes`: `pat` occurs contiguously inside `hay`. -/
def containsChars (hay pat : List Char) : Bool :=
  match hay with
  | [] => startsWithChars [] pat
  | c :: t => startsWithChars (c :: t) pat || containsChars t pat

/-- The structured tail of the per-candidate check: the parsed last name must
equal the target last name, and then either the first names or the initials must
agree (a missing side fails the clause, as the falsy guards do in JS). -/
def structMatchesBool (target : NameParts) (parsed : ParsedAuthor) : Bool :=
  match parsed.last, target.last with
  | some pl, some tl =>
    if pl ≠ tl then false
    else
      (match target.first, parsed.first with
        | some tf, some pf => decide (pf = tf)
        | _, _ => false)
      ||
      (match target.initial, parsed.initial with
        | some ti, some pi => decide (pi = ti)
        | _, _ => false)
  | _, _ => false

/-- The per-candidate body of `authors.some(...)` inside `includesAuthorName`:
empty normalized candidate fails, then the substring fast path, then the
structured comparison. -/
def authorMatches (target : NameParts) (author : String) : Bool :=
  let normalizedAuthor := normalizeNameL author.data
  if normalizedAuthor = [] then false
  else if target.parts.all (fun part => containsChars normalizedAuthor part) then true
  else structMatchesBool target (parseAuthorForMatching author)

/-- `includesAuthorName` from publicationService.ts. -/
def includesAuthorName (authors : List String) (authorName : String) : Bool :=
  let target := extractNameParts authorName
  if target.parts = [] ∨ target.last = none then false
  else authors.any (fun author => authorMatches target author)

/-!  Fan-out orchestrator: `fetchPublications` from publicationService.ts.
The three provider calls are issued through `Promise.allSettled`; each settles
independently, so the orchestrator is embedded as a pure function of the three
settled outcomes (the non-mock path). -/

/-- Result shape `PublicationResult`. -/
structure PublicationResult where
  publications : List Publication
  errors : List String
deriving DecidableEq, Repr

/-- One settled provider call: a rejected promise (with the derived message),
a fulfilled response with `!response.ok`, or a fulfilled ok response whose JSON
carried the given publication list. -/
inductive ProviderOutcome where
  | rejected (message : String)
  | httpFail (status : Nat) (body : String)
  | ok (pubs : List Publication)
deriving DecidableEq, Repr

/-- Whether the promise fulfilled (the response joins the `responses` list). -/
def isFulfilled : ProviderOutcome → Bool
  | .rejected _ => false
  | _ => true

/-- A provider that contributed no records and one error message. -/
def isFailedOutcome : ProviderOutcome → Bool
  | .ok _ => false
  | _ => true

/-- The error pushed while settling: `` `${name} request failed: ${message}` ``. -/
def rejectionErrors (name : String) : ProviderOutcome → List String
  | .rejected m => [name ++ " request failed: " ++ m]
  | _ => []

/-- The error pushed in the response loop:
`` `${name} request failed (${status}): ${body || "Unknown error"}` ``. -/
def responseErrors (name : String) : ProviderOutcome → List String
  | .httpFail status body =>
    [name ++ " request failed (" ++ toString status ++ "): " ++
      (if body = "" then "Unknown error" else body)]
  | _ => []

/-- The records a provider contributes to the merge. -/
def okRecords : ProviderOutcome → List Publication
  | .ok pubs => pubs
  | _ => []

/-- `fetchPublications` (non-mock path) as a function of the three settled outcomes. -/
def fetchPublications (pubmedResult scopusResult wosResult : ProviderOutcome) :
    PublicationResult :=
  let settledErrors :=
    rejectionErrors "PubMed" pubmedResult ++ rejectionErrors "Scopus" scopusResult ++
      rejectionErrors "Web of Science" wosResult
  if isFulfilled pubmedResult = false ∧ isFulfilled scopusResult = false ∧
      isFulfilled wosResult = false then
    { publications := []
      errors := if settledErrors = [] then ["Unable to reach any data source."] else settledErrors }
  else
    let errors := settledErrors ++ responseErrors "PubMed" pubmedResult ++
      responseErrors "Scopus" scopusResult ++ responseErrors "Web of Science" wosResult
    let publications := mergePublications (okRecords pubmedResult) (okRecords scopusResult)
      (okRecords wosResult)
    if publications = [] ∧ errors ≠ [] then { publications := [], errors := errors }
    else { publications := publications, errors := errors }

/-!  Citation-rate enrichment from `src/app/page.tsx` (`handleSearch`). -/

/-- `publication.sources?.includes("PubMed") || publication.source === "PubMed"`. -/
def isPubMedSourced (p : Publication) : Bool :=
  decide (PublicationSource.pubMed ∈ p.sources.getD []) || decide (p.source = .pubMed)

/-- The per-record body of the enrichment `map` in `handleSearch`: PubMed-sourced
records get `rcr` from the iCite map looked up under the record's `id`. -/
def enrichPublication (rcrMap : List (String × ℚ)) (p : Publication) : Publication :=
  if isPubMedSourced p then
    match mapGet p.id rcrMap with
    | some rcr => { p with rcr := some rcr }
    | none => p
  else p

/-- `publications.map(...)` of the enrichment step. -/
def enrichPublications (rcrMap : List (String × ℚ)) (publications : List Publication) :
    List Publication :=
  publications.map (enrichPublication rcrMap)

/-- Modelled from the spec: the merge key exactly as claim C1 words it — the
normalized DOI when present and non-empty, otherwise the normalized title
("lowercase, non-alphanumeric runs collapsed to a single separator, trimmed",
which is `normalizeName`), otherwise no key.  Used only to compare the claim's
wording with the code's behavior. -/
def claimMergeKey (p : Publication) : Option String :=
  if normalizeDoi p.doi ≠ "" then some (normalizeDoi p.doi)
  else if normalizeName p.title ≠ "" then some (normalizeName p.title)
  else none

/-!  Concrete records used by the claim instances. -/

/-- A record with every optional field absent and empty strings elsewhere. -/
def defaultPublication : Publication :=
  { id := "", title := "", authors := "", journal := "", date := "", citationCount := 0,
    aiPublicationType := .primaryResearch, abstract := "", source := .pubMed }

/-- PubMed record with DOI `a`, title `T`, 5 citations. -/
def pubA : Publication :=
  { defaultPublication with id := "pm1", title := "T", citationCount := 5, doi := some "a" }

/-- Scopus record with DOI `b`, the same title `T`, 12 citations. -/
def pubB : Publication :=
  { defaultPublication with
    id := "sc1"
    title := "T"
    citationCount := 12
    source := .scopus
    doi := some "b" }

/-- A record with no DOI and a title made only of punctuation: both keys empty. -/
def pubNoKey : Publication := { defaultPublication with id := "nk", title := "###" }

/-- PubMed record with DOI `10.d` and 5 citations. -/
def pubD5 : Publication :=
  { defaultPublication with
    id := "pm5"
    title := "First title"
    citationCount := 5
    doi := some "10.d" }

/-- Scopus record with DOI `10.D` (same normalized key) and 12 citations. -/
def pubD12 : Publication :=
  { defaultPublication with
    id := "sc12"
    title := "Second title"
    citationCount := 12
    source := .scopus
    doi := some "10.D" }

/-- A record whose raw DOI `10.ABC` differs from its normalization `10.abc`. -/
def pubRawDoi : Publication :=
  { defaultPublication with id := "x1", title := "Raw doi title", doi := some "10.ABC" }

/-- Scopus record sharing the DOI key of `pubRawDoi` with a lowercase raw DOI. -/
def pubRawDoi2 : Publication :=
  { defaultPublication with
    id := "x2"
    title := "Other title"
    source := .scopus
    doi := some "10.abc" }

/-- A paper with only a citation count, for the bibliometrics examples. -/
def mkPaper (c : Int) : Publication := { defaultPublication with citationCount := c }

/-- A paper with only a citation rate, for the weighted-sum example. -/
def mkRated (r : Option ℚ) : Publication := { defaultPublication with rcr := r }

/-- Citation counts 34, 57, 12 (first impact-index example of the spec). -/
def exPubs1 : List Publication := [mkPaper 34, mkPaper 57, mkPaper 12]

/-- Citation counts 57, 34, 1 (second impact-index example of the spec). -/
def exPubs2 : List Publication := [mkPaper 57, mkPaper 34, mkPaper 1]

/-- A PubMed record with id `w1`, used by the claim C10 witness. -/
def wPub : Publication := { defaultPublication with id := "w1" }

/-!  Resolver lemmas shared by several claims. -/

/-- A record that has at least one usable key (negation of the drop condition). -/
def usableRecord (p : Publication) : Bool :=
  decide (¬(doiKeyOf p = "" ∧ titleKeyOf p = ""))

/-- The fast path of the name-match claim: every token of the normalized target
name occurs as a substring of the normalized candidate string. -/
def fastPathMatch (target : NameParts) (author : String) : Prop :=
  ∀ part ∈ target.parts, containsChars (normalizeNameL author.data) part = true

/-- The structured clause of the name-match claim: the parsed last name of the
candidate equals the target last name, and either the first names or the
initials agree (both present and equal). -/
def structuredMatch (target : NameParts) (author : String) : Prop :=
  (parseAuthorForMatching author).last = target.last ∧
  (parseAuthorForMatching author).last ≠ none ∧
  ((target.first ≠ none ∧ (parseAuthorForMatching author).first = target.first) ∨
   (target.initial ≠ none ∧ (parseAuthorForMatching author).initial = target.initial))

/-- How many of the three providers failed (rejected promise or non-ok response). -/
def failCount (p s w : ProviderOutcome) : Nat :=
  (if isFailedOutcome p then 1 else 0) + (if isFailedOutcome s then 1 else 0) +
    (if isFailedOutcome w then 1 else 0)

/-- The error list `fetchPublications` assembles: rejection messages in provider
order followed by non-ok response messages in provider order. -/
def expectedErrors (p s w : ProviderOutcome) : List String :=
  rejectionErrors "PubMed" p ++ rejectionErrors "Scopus" s ++
    rejectionErrors "Web of Science" w ++ responseErrors "PubMed" p ++
    responseErrors "Scopus" s ++ responseErrors "Web of Science" w

theorem upsert_keyless (st : MergeState) (p : Publication)
    (h1 : doiKeyOf p = "") (h2 : titleKeyOf p = "") : upsert st p = st := by
  simp [upsert, h1, h2]

theorem foldl_upsert_filter (l : List Publication) :
    ∀ st : MergeState, l.foldl upsert st = (l.filter usableRecord).foldl upsert st := by
  induction l with
  | nil => intro st; rfl
  | cons p t ih =>
    intro st
    by_cases h : usableRecord p = true
    · simp only [List.foldl_cons, List.filter_cons_of_pos h, ih]
    · have h' : doiKeyOf p = "" ∧ titleKeyOf p = "" := by
        simpa [usableRecord] using h
      rw [List.filter_cons_of_neg h, List.foldl_cons, upsert_keyless st p h'.1 h'.2, ih]

theorem upsert_merges_of_lookup (st : MergeState) (p existing : Publication)
    (h : lookupExisting st p = some existing) :
    upsert st p = storeCanonical st p (mergeCanonical existing p) := by
  have hk : ¬(doiKeyOf p = "" ∧ titleKeyOf p = "") := by
    rintro ⟨h1, h2⟩
    simp [lookupExisting, h1, h2, orOpt] at h
  simp [upsert, hk, h]

/-- Claim C2 (failing instance): folding the PubMed record with DOI `a` and title
`T` and then the Scopus record with DOI `b` and the same title leaves TWO records
in the output, both carrying the non-empty normalized DOI `a`: the resolver wrote
the merged record under the map key `b` and left the stale pre-merge copy under
the map key `a`, so the output contains two canonical records sharing the merge
key `a` (and the stale one still shows the pre-merge citation count 5). -/
theorem mergePublications_duplicate_merge_key :
    (mergePublications [pubA] [pubB] []).length = 2 ∧
    (mergePublications [pubA] [pubB] []).map (fun p => normalizeDoi p.doi) = ["a", "a"] ∧
    (mergePublications [pubA] [pubB] []).map Publication.citationCount = [5, 12] := by
  decide

/-- Claim C1 (counterexample): `pubA` and `pubB` carry DIFFERENT merge keys in the
sense of the claim (`a` vs `b`, both derived from DOIs), yet the code folds `pubB`
into the canonical record created for `pubA` through the title index, as the
second output record carrying both provider tags shows.  Records are therefore
not folded together if and only if they share a merge key. -/
theorem claim_merge_key_iff_refuted :
    claimMergeKey pubA = some "a" ∧ claimMergeKey pubB = some "b" ∧
    (claimMergeKey pubA ≠ claimMergeKey pubB) ∧
    (mergePublications [pubA] [pubB] []).map (fun p => p.sources) =
      [some [.pubMed], some [.pubMed, .scopus]] := by
  decide

/-- Claim C1 (amended): a record with neither a usable DOI key nor a non-empty
normalized title key is silently dropped (its upsert leaves the state unchanged
and input lists may be pruned to their usable records without changing the
output), and an incoming record folds into the canonical record found by looking
up its DOI key in the DOI index first, falling back to its title key in the title
index - so a record whose DOI key misses can still fold by title, as the concrete
lookup shows. -/
theorem mergePublications_lookup_and_drop :
    (∀ (st : MergeState) (p : Publication),
      doiKeyOf p = "" → titleKeyOf p = "" → upsert st p = st) ∧
    (∀ pm sc ws : List Publication,
      mergePublications pm sc ws =
        mergePublications (pm.filter usableRecord) (sc.filter usableRecord)
          (ws.filter usableRecord)) ∧
    (∀ (st : MergeState) (p existing : Publication),
      lookupExisting st p = some existing →
        upsert st p = storeCanonical st p (mergeCanonical existing p)) ∧
    lookupExisting (upsert initMergeState pubA) pubB = some (freshCanonical pubA) ∧
    mergePublications [pubNoKey] [] [] = [] := by
  refine ⟨upsert_keyless, ?_, upsert_merges_of_lookup, by decide, by decide⟩
  intro pm sc ws
  simp only [mergePublications]
  rw [foldl_upsert_filter pm, foldl_upsert_filter sc, foldl_upsert_filter ws]

/-- Witness for the amended claim C1: the keyless record is dropped and the
title-index fold fires at concrete inputs. -/
theorem mergePublications_lookup_and_drop_witness :
    upsert initMergeState pubNoKey = initMergeState ∧
    upsert (upsert initMergeState pubA) pubB =
      storeCanonical (upsert initMergeState pubA) pubB
        (mergeCanonical (freshCanonical pubA) pubB) :=
  ⟨mergePublications_lookup_and_drop.1 initMergeState pubNoKey (by decide) (by decide),
   mergePublications_lookup_and_drop.2.2.1 (upsert initMergeState pubA) pubB
     (freshCanonical pubA) (by decide)⟩

/-- Claim C3: when an incoming record merges into an existing canonical record,
the fields title, journal, date, authors, abstract and aiPublicationType (and
also id) of the canonical record are unchanged - the update record spreads the
existing one and overrides only doi, url, citationCount, rcr, source, sources and
sourceUrls; the last conjunct pins the merge step of `upsert` to `mergeCanonical`. -/
theorem mergeCanonical_frame :
    (∀ existing p : Publication,
      (mergeCanonical existing p).title = existing.title ∧
      (mergeCanonical existing p).journal = existing.journal ∧
      (mergeCanonical existing p).date = existing.date ∧
      (mergeCanonical existing p).authors = existing.authors ∧
      (mergeCanonical existing p).abstract = existing.abstract ∧
      (mergeCanonical existing p).aiPublicationType = existing.aiPublicationType ∧
      (mergeCanonical existing p).id = existing.id) ∧
    (∀ (st : MergeState) (p existing : Publication),
      lookupExisting st p = some existing →
        upsert st p = storeCanonical st p (mergeCanonical existing p)) :=
  ⟨fun _ _ => ⟨rfl, rfl, rfl, rfl, rfl, rfl, rfl⟩, upsert_merges_of_lookup⟩

/-- Witness for claim C3 at concrete records sharing a DOI key. -/
theorem mergeCanonical_frame_witness :
    upsert (upsert initMergeState pubD5) pubD12 =
      storeCanonical (upsert initMergeState pubD5) pubD12
        (mergeCanonical (freshCanonical pubD5) pubD12) ∧
    (mergeCanonical (freshCanonical pubD5) pubD12).title = (freshCanonical pubD5).title :=
  ⟨mergeCanonical_frame.2 (upsert initMergeState pubD5) pubD12 (freshCanonical pubD5)
      (by decide),
   (mergeCanonical_frame.1 (freshCanonical pubD5) pubD12).1⟩

/-- Claim C4 (counterexample): the record with raw DOI `10.ABC` produces an output
record whose doi field is the RAW string `10.ABC`, not its non-empty normalization
`10.abc` - the resolver never stores the normalized DOI. -/
theorem merged_doi_not_normalized :
    (mergePublications [pubRawDoi] [] []).map (fun p => p.doi) = [some "10.ABC"] ∧
    normalizeDoi (some "10.ABC") = "10.abc" ∧
    (some "10.ABC" : Option String) ≠ some "10.abc" := by
  decide

/-- Claim C4 (amended): the doi of a produced record is the RAW DOI string of the
first contributing record whose DOI normalizes non-empty: on creation the
incoming DOI is copied as is, and on merge the existing DOI is retained whenever
it normalizes non-empty, otherwise the incoming raw DOI is adopted; concretely,
records with raw DOIs `10.ABC` and `10.abc` merge into one record that keeps the
first raw spelling `10.ABC`. -/
theorem merged_doi_retention_rule :
    (∀ existing p : Publication,
      (mergeCanonical existing p).doi =
        if normalizeDoi existing.doi ≠ "" then existing.doi else p.doi) ∧
    (∀ p : Publication, (freshCanonical p).doi = p.doi) ∧
    (mergePublications [pubRawDoi] [] [pubRawDoi2]).map (fun p => p.doi) =
      [some "10.ABC"] := by
  refine ⟨fun _ _ => rfl, fun _ => rfl, by decide⟩

/-- Claim C5: merging an incoming record into a canonical record takes the
maximum of the two citation counts, and records with counts 5 and 12 for the same
identity yield a single record with count 12 in either input order. -/
theorem merge_citation_count_max :
    (∀ existing p : Publication,
      (mergeCanonical existing p).citationCount =
        max existing.citationCount p.citationCount) ∧
    (mergePublications [pubD5] [pubD12] []).map Publication.citationCount = [12] ∧
    (mergePublications [pubD12] [pubD5] []).map Publication.citationCount = [12] := by
  refine ⟨fun _ _ => rfl, by decide, by decide⟩

theorem weightedRCR_foldl_sum (l : List Publication) :
    ∀ a : ℚ, l.foldl (fun total paper => total + paper.rcr.getD 0) a =
      a + (l.map (fun p => p.rcr.getD 0)).sum := by
  induction l with
  | nil => intro a; simp
  | cons p t ih => intro a; simp [ih, add_assoc]

/-- Claim C7: `calculateWeightedRCR` returns the plain sum of the rcr values with
an absent value read as zero and no normalization by record count, and the rates
21/10, absent, 2/5 sum to 5/2. -/
theorem calculateWeightedRCR_spec :
    (∀ papers : List Publication,
      calculateWeightedRCR papers = (papers.map (fun p => p.rcr.getD 0)).sum) ∧
    calculateWeightedRCR [mkRated (some (21/10)), mkRated none, mkRated (some (2/5))] =
      5/2 := by
  constructor
  · intro papers
    simpa using weightedRCR_foldl_sum papers 0
  · simp [calculateWeightedRCR, mkRated, defaultPublication]
    norm_num

/-- Claim C10: the merge step keeps the id of the existing canonical record and
the creation step copies the id of the incoming record, the fold order is fixed
as PubMed, then Scopus, then Web of Science, and the enrichment step attaches the
citation rate looked up under the id of the merged record for PubMed-sourced
records; concretely the PubMed/Scopus pair merges into one record with the PubMed
id `pm5`, which the iCite map keyed on `pm5` then enriches. -/
theorem merged_id_and_enrichment :
    (∀ existing p : Publication, (mergeCanonical existing p).id = existing.id) ∧
    (∀ p : Publication, (freshCanonical p).id = p.id) ∧
    (∀ pm sc ws : List Publication,
      mergePublications pm sc ws =
        (((pm ++ sc) ++ ws).foldl upsert initMergeState).merged.map Prod.snd) ∧
    (∀ (m : List (String × ℚ)) (p : Publication) (r : ℚ),
      isPubMedSourced p = true → mapGet p.id m = some r →
        enrichPublication m p = { p with rcr := some r }) ∧
    (∀ (m : List (String × ℚ)) (p : Publication),
      isPubMedSourced p = false → enrichPublication m p = p) ∧
    (mergePublications [pubD5] [pubD12] []).map Publication.id = ["pm5"] ∧
    (enrichPublications [("pm5", (3 : ℚ))] (mergePublications [pubD5] [pubD12] [])).map
      (fun p => p.rcr) = [some 3] := by
  refine ⟨fun _ _ => rfl, fun _ => rfl, ?_, ?_, ?_, by decide, by decide⟩
  · intro pm sc ws
    simp [mergePublications, List.foldl_append]
  · intro m p r h1 h2
    simp [enrichPublication, h1, h2]
  · intro m p h
    simp [enrichPublication, h]

/-!  Bibliometrics lemmas for claim C6. -/

theorem getD_eq_getElem_of_lt {α : Type} (l : List α) (d : α) (i : Nat)
    (h : i < l.length) : l.getD i d = l[i] := by
  simp [List.getD_eq_getElem?_getD, List.getElem?_eq_getElem h]

theorem insertDesc_perm (p : Publication) (l : List Publication) :
    (insertDesc p l).Perm (p :: l) := by
  induction l with
  | nil => exact List.Perm.refl [p]
  | cons q qs ih =>
    by_cases h : q.citationCount ≤ p.citationCount
    · simp [insertDesc, h]
    · simp only [insertDesc, if_neg h]
      exact (ih.cons q).trans (List.Perm.swap p q qs)

theorem sortByCitationsDesc_perm (l : List Publication) :
    (sortByCitationsDesc l).Perm l := by
  induction l with
  | nil => exact List.Perm.refl []
  | cons p ps ih => exact (insertDesc_perm p (sortByCitationsDesc ps)).trans (ih.cons p)

theorem insertDesc_pairwise (p : Publication) (l : List Publication)
    (h : l.Pairwise (fun a b => b.citationCount ≤ a.citationCount)) :
    (insertDesc p l).Pairwise (fun a b => b.citationCount ≤ a.citationCount) := by
  induction l with
  | nil => simp [insertDesc]
  | cons q qs ih =>
    rw [List.pairwise_cons] at h
    obtain ⟨hq, hqs⟩ := h
    by_cases hle : q.citationCount ≤ p.citationCount
    · simp only [insertDesc, if_pos hle]
      rw [List.pairwise_cons]
      refine ⟨?_, List.pairwise_cons.mpr ⟨hq, hqs⟩⟩
      intro x hx
      rcases List.mem_cons.mp hx with rfl | hx
      · exact hle
      · exact le_trans (hq x hx) hle
    · simp only [insertDesc, if_neg hle]
      rw [List.pairwise_cons]
      refine ⟨?_, ih hqs⟩
      intro x hx
      have hx' : x ∈ p :: qs := (insertDesc_perm p qs).mem_iff.mp hx
      rcases List.mem_cons.mp hx' with rfl | hx'
      · exact le_of_lt (lt_of_not_le hle)
      · exact hq x hx'

theorem sortByCitationsDesc_pairwise (l : List Publication) :
    (sortByCitationsDesc l).Pairwise (fun a b => b.citationCount ≤ a.citationCount) := by
  induction l with
  | nil => simp [sortByCitationsDesc]
  | cons p ps ih => exact insertDesc_pairwise p (sortByCitationsDesc ps) ih

theorem insertDesc_filter (c : Int) (p : Publication) (l : List Publication) :
    (insertDesc p l).filter (fun x => decide (x.citationCount = c)) =
      if p.citationCount = c then
        p :: l.filter (fun x => decide (x.citationCount = c))
      else l.filter (fun x => decide (x.citationCount = c)) := by
  induction l with
  | nil => by_cases h : p.citationCount = c <;> simp [insertDesc, h]
  | cons q qs ih =>
    by_cases hle : q.citationCount ≤ p.citationCount
    · simp only [insertDesc, if_pos hle]
      by_cases hp : p.citationCount = c <;> simp [hp, List.filter_cons]
    · simp only [insertDesc, if_neg hle]
      by_cases hp : p.citationCount = c
      · have hqc : ¬q.citationCount = c := by
          intro hqc
          exact hle (by rw [hqc, hp])
        simp [List.filter_cons, hp, hqc, ih]
      · simp [List.filter_cons, hp, ih]

theorem sortByCitationsDesc_filter (c : Int) (l : List Publication) :
    (sortByCitationsDesc l).filter (fun x => decide (x.citationCount = c)) =
      l.filter (fun x => decide (x.citationCount = c)) := by
  induction l with
  | nil => rfl
  | cons p ps ih =>
    simp only [sortByCitationsDesc, insertDesc_filter, ih, List.filter_cons]
    by_cases hp : p.citationCount = c <;> simp [hp]

theorem hIndexScan_ge (l : List Publication) : ∀ i, i ≤ hIndexScan l i := by
  induction l with
  | nil => intro i; exact le_refl i
  | cons p ps ih =>
    intro i
    by_cases h : ((i : Int) + 1) ≤ p.citationCount
    · simp only [hIndexScan, if_pos h]
      exact le_trans (Nat.le_succ i) (ih (i + 1))
    · simp [hIndexScan, h]

theorem hIndexScan_le (l : List Publication) : ∀ i, hIndexScan l i ≤ i + l.length := by
  induction l with
  | nil => intro i; simp [hIndexScan]
  | cons p ps ih =>
    intro i
    by_cases h : ((i : Int) + 1) ≤ p.citationCount
    · simp only [hIndexScan, if_pos h, List.length_cons]
      have := ih (i + 1)
      omega
    · simp only [hIndexScan, if_neg h, List.length_cons]
      omega

theorem hIndexScan_sat (l : List Publication) :
    ∀ i j, i ≤ j → j < hIndexScan l i →
      ((j : Int) + 1) ≤ (l.getD (j - i) defaultPublication).citationCount := by
  induction l with
  | nil =>
    intro i j hij hlt
    simp only [hIndexScan] at hlt
    omega
  | cons p ps ih =>
    intro i j hij hlt
    by_cases h : ((i : Int) + 1) ≤ p.citationCount
    · simp only [hIndexScan, if_pos h] at hlt
      rcases Nat.eq_or_lt_of_le hij with rfl | hij'
      · simpa using h
      · have h1 : i + 1 ≤ j := hij'
        have hrec := ih (i + 1) j h1 hlt
        have hsub : j - i = (j - (i + 1)) + 1 := by omega
        rw [hsub, List.getD_cons_succ]
        exact hrec
    · simp only [hIndexScan, if_neg h] at hlt
      omega

theorem hIndexScan_stop (l : List Publication) :
    ∀ i, hIndexScan l i < i + l.length →
      (l.getD (hIndexScan l i - i) defaultPublication).citationCount <
        (hIndexScan l i : Int) + 1 := by
  induction l with
  | nil =>
    intro i h
    simp only [hIndexScan, List.length_nil] at h
    omega
  | cons p ps ih =>
    intro i h
    by_cases hc : ((i : Int) + 1) ≤ p.citationCount
    · have hge : i + 1 ≤ hIndexScan ps (i + 1) := hIndexScan_ge ps (i + 1)
      simp only [hIndexScan, if_pos hc, List.length_cons] at h ⊢
      have h' : hIndexScan ps (i + 1) < (i + 1) + ps.length := by omega
      have hrec := ih (i + 1) h'
      have hsub : hIndexScan ps (i + 1) - i = (hIndexScan ps (i + 1) - (i + 1)) + 1 := by
        omega
      rw [hsub, List.getD_cons_succ]
      exact hrec
    · simp only [hIndexScan, if_neg hc, Nat.sub_self, List.getD_cons_zero]
      exact lt_of_not_le hc

theorem sorted_getD_anti (l : List Publication)
    (h : l.Pairwise (fun a b => b.citationCount ≤ a.citationCount)) :
    ∀ a b : Nat, a ≤ b → b < l.length →
      (l.getD b defaultPublication).citationCount ≤
        (l.getD a defaultPublication).citationCount := by
  intro a b hab hb
  rcases Nat.eq_or_lt_of_le hab with rfl | hlt
  · exact le_refl _
  · have ha : a < l.length := lt_trans hlt hb
    have hrel := (List.pairwise_iff_getElem.mp h) a b ha hb hlt
    rw [getD_eq_getElem_of_lt l defaultPublication a ha,
      getD_eq_getElem_of_lt l defaultPublication b hb]
    exact hrel

/-- Claim C6: `calculateHIndex` sorts a copy of the list by citation count
descending (a permutation, pairwise descending, and stable: every per-count
filter keeps the original order), the returned value is at most the list length,
every rank up to the returned value satisfies the count condition, the scan stops
at the first failing rank, and no rank beyond the returned value satisfies the
condition (so the value is the largest such rank); on counts 34, 57, 12 it
returns 3 and on 57, 34, 1 it returns 2. -/
theorem calculateHIndex_spec :
    (∀ papers : List Publication,
      (sortByCitationsDesc papers).Perm papers ∧
      (sortByCitationsDesc papers).Pairwise
        (fun a b => b.citationCount ≤ a.citationCount) ∧
      (∀ c : Int,
        (sortByCitationsDesc papers).filter (fun x => decide (x.citationCount = c)) =
          papers.filter (fun x => decide (x.citationCount = c))) ∧
      calculateHIndex papers ≤ papers.length ∧
      (∀ j, j < calculateHIndex papers →
        ((j : Int) + 1) ≤
          ((sortByCitationsDesc papers).getD j defaultPublication).citationCount) ∧
      (calculateHIndex papers < papers.length →
        ((sortByCitationsDesc papers).getD (calculateHIndex papers)
            defaultPublication).citationCount < (calculateHIndex papers : Int) + 1) ∧
      (∀ i, 1 ≤ i → i ≤ papers.length →
        (i : Int) ≤
          ((sortByCitationsDesc papers).getD (i - 1) defaultPublication).citationCount →
        i ≤ calculateHIndex papers)) ∧
    calculateHIndex exPubs1 = 3 ∧ calculateHIndex exPubs2 = 2 := by
  refine ⟨?_, by decide, by decide⟩
  intro papers
  have hperm := sortByCitationsDesc_perm papers
  have hlen : (sortByCitationsDesc papers).length = papers.length := hperm.length_eq
  have hpw := sortByCitationsDesc_pairwise papers
  refine ⟨hperm, hpw, fun c => sortByCitationsDesc_filter c papers, ?_, ?_, ?_, ?_⟩
  · have := hIndexScan_le (sortByCitationsDesc papers) 0
    simp only [calculateHIndex]
    omega
  · intro j hj
    simp only [calculateHIndex] at hj
    have := hIndexScan_sat (sortByCitationsDesc papers) 0 j (Nat.zero_le j) hj
    simpa using this
  · intro hlt
    simp only [calculateHIndex] at hlt ⊢
    have hlt' : hIndexScan (sortByCitationsDesc papers) 0 <
        0 + (sortByCitationsDesc papers).length := by omega
    have := hIndexScan_stop (sortByCitationsDesc papers) 0 hlt'
    simpa using this
  · intro i h1 h2 hge
    by_contra hno
    push_neg at hno
    simp only [calculateHIndex] at hno
    have hstop' : hIndexScan (sortByCitationsDesc papers) 0 <
        0 + (sortByCitationsDesc papers).length := by omega
    have hs1 := hIndexScan_stop (sortByCitationsDesc papers) 0 hstop'
    rw [Nat.sub_zero] at hs1
    have hs2 := sorted_getD_anti (sortByCitationsDesc papers) hpw
      (hIndexScan (sortByCitationsDesc papers) 0) (i - 1) (by omega) (by omega)
    omega

/-- Witness for claim C6: the largest-rank conjunct applied at the second spec
example, where rank 2 satisfies the condition. -/
theorem calculateHIndex_spec_witness :
    (2 : Int) ≤ ((sortByCitationsDesc exPubs2).getD 1 defaultPublication).citationCount ∧
    2 ≤ calculateHIndex exPubs2 :=
  ⟨by decide,
   (calculateHIndex_spec.1 exPubs2).2.2.2.2.2.2 2 (by decide) (by decide) (by decide)⟩

/-- Witness for claim C10: the enrichment rule applied at a concrete record. -/
theorem merged_id_and_enrichment_witness :
    enrichPublication [("w1", (2 : ℚ))] wPub = { wPub with rcr := some (2 : ℚ) } :=
  merged_id_and_enrichment.2.2.2.1 [("w1", (2 : ℚ))] wPub (2 : ℚ) (by decide) (by decide)

/-!  Name-matcher lemmas for claim C8. -/

theorem splitSpaces_ne_nil : ∀ (cs acc : List Char), ∀ t ∈ splitSpaces cs acc, t ≠ [] := by
  intro cs
  induction cs with
  | nil =>
    intro acc t ht
    by_cases h : acc = []
    · simp [splitSpaces, h] at ht
    · simp only [splitSpaces, if_neg h, List.mem_singleton] at ht
      subst ht
      simpa using h
  | cons c cs ih =>
    intro acc t ht
    by_cases hsp : c = ' '
    · by_cases h : acc = []
      · simp only [splitSpaces, if_pos hsp, if_pos h] at ht
        exact ih [] t ht
      · simp only [splitSpaces, if_pos hsp, if_neg h, List.mem_cons] at ht
        rcases ht with rfl | ht
        · simpa using h
        · exact ih [] t ht
    · simp only [splitSpaces, if_neg hsp] at ht
      exact ih (c :: acc) t ht

theorem collapseRuns_all_nonalnum_true (ds : List Char)
    (h : ∀ c ∈ ds, isAlnumLower c = false) : collapseRuns ds true = [] := by
  induction ds with
  | nil => rfl
  | cons d rest ih =>
    have hd := h d (List.mem_cons_self d rest)
    simp only [collapseRuns, hd]
    exact ih (fun c hc => h c (List.mem_cons_of_mem d hc))

theorem collapseRuns_all_nonalnum_false (ds : List Char)
    (h : ∀ c ∈ ds, isAlnumLower c = false) :
    collapseRuns ds false = [] ∨ collapseRuns ds false = [' '] := by
  cases ds with
  | nil => left; rfl
  | cons d rest =>
    have hd := h d (List.mem_cons_self d rest)
    right
    simp only [collapseRuns, hd]
    rw [collapseRuns_all_nonalnum_true rest (fun c hc => h c (List.mem_cons_of_mem d hc))]
    simp

theorem normalizeNameL_all_nonalnum (cs : List Char)
    (h : ∀ c ∈ cs, isAlnumLower (Char.toLower c) = false) : normalizeNameL cs = [] := by
  have hmap : ∀ c ∈ cs.map Char.toLower, isAlnumLower c = false := by
    intro c hc
    rcases List.mem_map.mp hc with ⟨d, hd, rfl⟩
    exact h d hd
  unfold normalizeNameL
  rcases collapseRuns_all_nonalnum_false (cs.map Char.toLower) hmap with he | he
  · rw [he]; rfl
  · rw [he]; rfl

theorem mem_of_mem_dropWhile {α : Type} (p : α → Bool) :
    ∀ (l : List α) (c : α), c ∈ l.dropWhile p → c ∈ l := by
  intro l
  induction l with
  | nil => intro c hc; simp at hc
  | cons d rest ih =>
    intro c hc
    rw [List.dropWhile_cons] at hc
    by_cases hd : p d = true
    · rw [if_pos hd] at hc
      exact List.mem_cons_of_mem d (ih c hc)
    · rw [if_neg hd] at hc
      exact hc

theorem mem_dropWhile_of_mem {α : Type} (p : α → Bool) :
    ∀ (l : List α) (c : α), c ∈ l → p c = false → c ∈ l.dropWhile p := by
  intro l
  induction l with
  | nil => intro c hc _; simp at hc
  | cons d rest ih =>
    intro c hc hpc
    rw [List.dropWhile_cons]
    by_cases hd : p d = true
    · rw [if_pos hd]
      rcases List.mem_cons.mp hc with rfl | hc
      · rw [hpc] at hd
        exact absurd hd (by simp)
      · exact ih c hc hpc
    · rw [if_neg hd]
      exact hc

theorem mem_of_mem_trimWs (cs : List Char) (c : Char) (hc : c ∈ trimWs cs) : c ∈ cs := by
  unfold trimWs at hc
  rw [List.mem_reverse] at hc
  have hc2 := mem_of_mem_dropWhile _ _ _ hc
  rw [List.mem_reverse] at hc2
  exact mem_of_mem_dropWhile _ _ _ hc2

theorem mem_trimSpaces (cs : List Char) (c : Char) (hc : c ∈ cs)
    (hne : (fun x => decide (x = ' ')) c = false) : c ∈ trimSpaces cs := by
  unfold trimSpaces
  rw [List.mem_reverse]
  refine mem_dropWhile_of_mem _ _ _ ?_ hne
  rw [List.mem_reverse]
  exact mem_dropWhile_of_mem _ _ _ hc hne

theorem mem_collapseRuns_of_alnum : ∀ (ds : List Char) (b : Bool) (c : Char),
    c ∈ ds → isAlnumLower c = true → c ∈ collapseRuns ds b := by
  intro ds
  induction ds with
  | nil => intro b c hc _; simp at hc
  | cons d rest ih =>
    intro b c hc halnum
    rcases List.mem_cons.mp hc with rfl | hc
    · simp only [collapseRuns, halnum]
      exact List.mem_cons_self c (collapseRuns rest false)
    · by_cases hd : isAlnumLower d = true
      · simp only [collapseRuns, hd]
        exact List.mem_cons_of_mem d (ih false c hc halnum)
      · rw [Bool.not_eq_true] at hd
        cases b with
        | true =>
          simp only [collapseRuns, hd]
          exact ih true c hc halnum
        | false =>
          simp only [collapseRuns, hd]
          exact List.mem_cons_of_mem ' ' (ih true c hc halnum)

theorem nonalnum_of_normalizeNameL_eq_nil (cs : List Char)
    (h : normalizeNameL cs = []) :
    ∀ c ∈ cs, isAlnumLower (Char.toLower c) = false := by
  intro c hc
  cases he : isAlnumLower (Char.toLower c)
  · rfl
  · exfalso
    have hmem : Char.toLower c ∈ collapseRuns (cs.map Char.toLower) false :=
      mem_collapseRuns_of_alnum _ false _ (List.mem_map_of_mem Char.toLower hc) he
    have hne : (fun x => decide (x = ' ')) (Char.toLower c) = false := by
      show decide (Char.toLower c = ' ') = false
      cases hd : decide (Char.toLower c = ' ')
      · rfl
      · exfalso
        have hsp : Char.toLower c = ' ' := of_decide_eq_true hd
        rw [hsp] at he
        exact absurd he (by decide)
    have hfin : Char.toLower c ∈ trimSpaces (collapseRuns (cs.map Char.toLower) false) :=
      mem_trimSpaces _ _ hmem hne
    have heq : trimSpaces (collapseRuns (cs.map Char.toLower) false) = normalizeNameL cs := rfl
    rw [heq, h] at hfin
    simp at hfin

theorem splitOnComma_chars : ∀ (cs acc : List Char), ∀ seg ∈ splitOnComma cs acc,
    ∀ c ∈ seg, c ∈ cs ∨ c ∈ acc := by
  intro cs
  induction cs with
  | nil =>
    intro acc seg hseg c hc
    simp only [splitOnComma, List.mem_singleton] at hseg
    subst hseg
    right
    exact List.mem_reverse.mp hc
  | cons d rest ih =>
    intro acc seg hseg c hc
    by_cases hd : d = ','
    · simp only [splitOnComma, if_pos hd, List.mem_cons] at hseg
      rcases hseg with rfl | hseg
      · right
        exact List.mem_reverse.mp hc
      · rcases ih [] seg hseg c hc with h | h
        · left; exact List.mem_cons_of_mem d h
        · simp at h
    · simp only [splitOnComma, if_neg hd] at hseg
      rcases ih (d :: acc) seg hseg c hc with h | h
      · left; exact List.mem_cons_of_mem d h
      · rcases List.mem_cons.mp h with rfl | h
        · left; exact List.mem_cons_self c rest
        · right; exact h

theorem joinSpace_chars : ∀ (ls : List (List Char)) (c : Char), c ∈ joinSpace ls →
    (∃ s ∈ ls, c ∈ s) ∨ c = ' ' := by
  intro ls
  induction ls with
  | nil => intro c hc; simp [joinSpace] at hc
  | cons s rest ih =>
    intro c hc
    cases rest with
    | nil =>
      simp only [joinSpace] at hc
      left
      exact ⟨s, List.mem_cons_self s [], hc⟩
    | cons s2 rest2 =>
      simp only [joinSpace] at hc
      rcases List.mem_append.mp hc with h | h
      · left; exact ⟨s, List.mem_cons_self s _, h⟩
      · rcases List.mem_cons.mp h with rfl | h
        · right; rfl
        · rcases ih c h with ⟨t, ht, hct⟩ | h
          · left; exact ⟨t, List.mem_cons_of_mem s ht, hct⟩
          · right; exact h

theorem parseAuthorForMatching_no_alnum (a : String)
    (h : ∀ c ∈ a.data, isAlnumLower (Char.toLower c) = false) :
    parseAuthorForMatching a = ⟨none, none, none⟩ := by
  have htrim : ∀ c ∈ trimWs a.data, isAlnumLower (Char.toLower c) = false := by
    intro c hc
    exact h c (mem_of_mem_trimWs a.data c hc)
  by_cases h0 : trimWs a.data = []
  · simp [parseAuthorForMatching, h0]
  · by_cases h1 : ',' ∈ trimWs a.data
    · rcases e : splitOnComma (trimWs a.data) [] with _ | ⟨lastPart, rest⟩
      · simp [parseAuthorForMatching, h0, h1, e]
      · have hlastmem : lastPart ∈ splitOnComma (trimWs a.data) [] := by
          rw [e]; exact List.mem_cons_self _ _
        have hlast : normalizeNameL lastPart = [] := by
          apply normalizeNameL_all_nonalnum
          intro c hc
          rcases splitOnComma_chars _ _ lastPart hlastmem c hc with hm | hm
          · exact htrim c hm
          · simp at hm
        have hfirst : normalizeNameL (trimWs (joinSpace rest)) = [] := by
          apply normalizeNameL_all_nonalnum
          intro c hc
          have hcj : c ∈ joinSpace rest := mem_of_mem_trimWs _ c hc
          rcases joinSpace_chars rest c hcj with ⟨s, hs, hcs⟩ | rfl
          · have hsmem : s ∈ splitOnComma (trimWs a.data) [] := by
              rw [e]; exact List.mem_cons_of_mem _ hs
            rcases splitOnComma_chars _ _ s hsmem c hcs with hm | hm
            · exact htrim c hm
            · simp at hm
          · decide
        simp [parseAuthorForMatching, h0, h1, e, hlast, hfirst, splitSpaces]
    · have hnn : normalizeNameL (trimWs a.data) = [] := normalizeNameL_all_nonalnum _ htrim
      simp [parseAuthorForMatching, h0, h1, hnn, splitSpaces]

theorem structMatchesBool_iff (target : NameParts) (parsed : ParsedAuthor) :
    structMatchesBool target parsed = true ↔
      (parsed.last = target.last ∧ parsed.last ≠ none ∧
        ((target.first ≠ none ∧ parsed.first = target.first) ∨
         (target.initial ≠ none ∧ parsed.initial = target.initial))) := by
  rcases parsed with ⟨pl, pf, pi⟩
  rcases target with ⟨tp, tl, tf, ti⟩
  cases pl with
  | none => simp [structMatchesBool]
  | some pl =>
    cases tl with
    | none => simp [structMatchesBool]
    | some tl =>
      by_cases hpt : pl = tl
      · subst hpt
        cases tf <;> cases pf <;> cases ti <;> cases pi <;>
          simp [structMatchesBool]
      · simp [structMatchesBool, hpt]

theorem authorMatches_iff (name a : String)
    (hp : (extractNameParts name).parts ≠ []) :
    authorMatches (extractNameParts name) a = true ↔
      (fastPathMatch (extractNameParts name) a ∨
        structuredMatch (extractNameParts name) a) := by
  by_cases hna : normalizeNameL a.data = []
  · have hparse : parseAuthorForMatching a = ⟨none, none, none⟩ :=
      parseAuthorForMatching_no_alnum a (nonalnum_of_normalizeNameL_eq_nil a.data hna)
    constructor
    · intro h
      simp [authorMatches, hna] at h
    · rintro (hfast | hstruct)
      · exfalso
        rcases List.exists_mem_of_ne_nil _ hp with ⟨t0, ht0⟩
        have ht0ne : t0 ≠ [] := splitSpaces_ne_nil _ _ t0 ht0
        have hcont := hfast t0 ht0
        rw [hna] at hcont
        rcases t0 with _ | ⟨c, t0r⟩
        · exact ht0ne rfl
        · simp [containsChars, startsWithChars] at hcont
      · exfalso
        rcases hstruct with ⟨_, hne, _⟩
        rw [hparse] at hne
        exact hne rfl
  · simp only [authorMatches, if_neg hna]
    by_cases hfastb :
        (extractNameParts name).parts.all
          (fun part => containsChars (normalizeNameL a.data) part) = true
    · rw [if_pos hfastb]
      constructor
      · intro _
        left
        intro part hpart
        exact List.all_eq_true.mp hfastb part hpart
      · intro _
        rfl
    · rw [if_neg hfastb, structMatchesBool_iff]
      constructor
      · intro h
        exact Or.inr h
      · rintro (hfast | hstruct)
        · exact absurd (List.all_eq_true.mpr fun part hpart => hfast part hpart) hfastb
        · exact hstruct

/-- Claim C8: the name matcher declares a match exactly when the target name has
at least one token and some candidate author passes the fast path (every target
token a substring of the normalized candidate) or the structured comparison
(parsed last name equals the target last name, and the first names or the
initials agree); target Jordan Lee matches the candidates Lee, J. and
Jordan A. Lee but not Jordan Smith. -/
theorem includesAuthorName_spec :
    (∀ (authors : List String) (name : String),
      includesAuthorName authors name = true ↔
        ((extractNameParts name).parts ≠ [] ∧
          ∃ a ∈ authors,
            fastPathMatch (extractNameParts name) a ∨
              structuredMatch (extractNameParts name) a)) ∧
    includesAuthorName ["Lee, J."] "Jordan Lee" = true ∧
    includesAuthorName ["Jordan A. Lee"] "Jordan Lee" = true ∧
    includesAuthorName ["Jordan Smith"] "Jordan Lee" = false := by
  refine ⟨?_, by decide, by decide, by decide⟩
  intro authors name
  by_cases hp : (extractNameParts name).parts = []
  · simp [includesAuthorName, hp]
  · have hlast : ¬(extractNameParts name).last = none := by
      intro hln
      apply hp
      exact List.getLast?_eq_none_iff.mp hln
    simp only [includesAuthorName, if_neg (not_or.mpr ⟨hp, hlast⟩)]
    rw [List.any_eq_true]
    constructor
    · rintro ⟨a, ha, hm⟩
      exact ⟨hp, a, ha, (authorMatches_iff name a hp).mp hm⟩
    · rintro ⟨_, a, ha, hm⟩
      exact ⟨a, ha, (authorMatches_iff name a hp).mpr hm⟩

/-- Witness for claim C8: the characterization applied to the second example
candidate, which matches through the fast path. -/
theorem includesAuthorName_spec_witness :
    (extractNameParts "Jordan Lee").parts ≠ [] ∧
    ∃ a ∈ ["Jordan A. Lee"],
      fastPathMatch (extractNameParts "Jordan Lee") a ∨
        structuredMatch (extractNameParts "Jordan Lee") a :=
  (includesAuthorName_spec.1 ["Jordan A. Lee"] "Jordan Lee").mp (by decide)

/-!  Orchestrator lemmas for claim C9. -/

theorem fetchPublications_eq (p s w : ProviderOutcome) :
    fetchPublications p s w =
      { publications := mergePublications (okRecords p) (okRecords s) (okRecords w)
        errors := expectedErrors p s w } := by
  cases p <;> cases s <;> cases w <;>
    simp [fetchPublications, expectedErrors, rejectionErrors, responseErrors, isFulfilled,
      okRecords, mergePublications, initMergeState]

/-- Claim C9: the orchestrator model consumes all three settled outcomes - every
succeeding provider contributes its records to the merge whatever the others did,
each failed provider contributes exactly one message prefixed with its name (the
error count equals the failed-provider count, and one failure means one error),
and a partial failure with a non-empty merge returns both the non-empty
publication list and the non-empty error list rather than escalating. -/
theorem fetchPublications_spec :
    ∀ p s w : ProviderOutcome,
      (fetchPublications p s w).publications =
        mergePublications (okRecords p) (okRecords s) (okRecords w) ∧
      (fetchPublications p s w).errors.length = failCount p s w ∧
      (isFailedOutcome p = true →
        ∃ rest, ("PubMed" ++ rest) ∈ (fetchPublications p s w).errors) ∧
      (isFailedOutcome s = true →
        ∃ rest, ("Scopus" ++ rest) ∈ (fetchPublications p s w).errors) ∧
      (isFailedOutcome w = true →
        ∃ rest, ("Web of Science" ++ rest) ∈ (fetchPublications p s w).errors) ∧
      (failCount p s w = 1 → (fetchPublications p s w).errors.length = 1) ∧
      (1 ≤ failCount p s w →
        mergePublications (okRecords p) (okRecords s) (okRecords w) ≠ [] →
        (fetchPublications p s w).publications ≠ [] ∧
          (fetchPublications p s w).errors ≠ []) := by
  intro p s w
  rw [fetchPublications_eq]
  have hlen : (expectedErrors p s w).length = failCount p s w := by
    cases p <;> cases s <;> cases w <;>
      simp [expectedErrors, rejectionErrors, responseErrors, failCount, isFailedOutcome]
  have hmemP : isFailedOutcome p = true →
      ∃ rest, ("PubMed" ++ rest) ∈ expectedErrors p s w := by
    intro hf
    cases p with
    | rejected m =>
      refine ⟨" request failed: " ++ m, ?_⟩
      have he : "PubMed" ++ (" request failed: " ++ m) = "PubMed request failed: " ++ m := by
        rw [← String.append_assoc]
        have : "PubMed" ++ " request failed: " = "PubMed request failed: " := by decide
        rw [this]
      rw [he]
      simp [expectedErrors, rejectionErrors]
    | httpFail st body =>
      refine ⟨" request failed (" ++ (toString st ++ ("): " ++
        (if body = "" then "Unknown error" else body))), ?_⟩
      have he : "PubMed" ++ (" request failed (" ++ (toString st ++ ("): " ++
          (if body = "" then "Unknown error" else body)))) =
          "PubMed" ++ " request failed (" ++ toString st ++ "): " ++
            (if body = "" then "Unknown error" else body) := by
        simp only [String.append_assoc]
      rw [he]
      simp [expectedErrors, responseErrors]
    | ok pubs => simp [isFailedOutcome] at hf
  have hmemS : isFailedOutcome s = true →
      ∃ rest, ("Scopus" ++ rest) ∈ expectedErrors p s w := by
    intro hf
    cases s with
    | rejected m =>
      refine ⟨" request failed: " ++ m, ?_⟩
      have he : "Scopus" ++ (" request failed: " ++ m) = "Scopus request failed: " ++ m := by
        rw [← String.append_assoc]
        have : "Scopus" ++ " request failed: " = "Scopus request failed: " := by decide
        rw [this]
      rw [he]
      simp [expectedErrors, rejectionErrors]
    | httpFail st body =>
      refine ⟨" request failed (" ++ (toString st ++ ("): " ++
        (if body = "" then "Unknown error" else body))), ?_⟩
      have he : "Scopus" ++ (" request failed (" ++ (toString st ++ ("): " ++
          (if body = "" then "Unknown error" else body)))) =
          "Scopus" ++ " request failed (" ++ toString st ++ "): " ++
            (if body = "" then "Unknown error" else body) := by
        simp only [String.append_assoc]
      rw [he]
      simp [expectedErrors, responseErrors]
    | ok pubs => simp [isFailedOutcome] at hf
  have hmemW : isFailedOutcome w = true →
      ∃ rest, ("Web of Science" ++ rest) ∈ expectedErrors p s w := by
    intro hf
    cases w with
    | rejected m =>
      refine ⟨" request failed: " ++ m, ?_⟩
      have he : "Web of Science" ++ (" request failed: " ++ m) =
          "Web of Science request failed: " ++ m := by
        rw [← String.append_assoc]
        have : "Web of Science" ++ " request failed: " =
            "Web of Science request failed: " := by decide
        rw [this]
      rw [he]
      simp [expectedErrors, rejectionErrors]
    | httpFail st body =>
      refine ⟨" request failed (" ++ (toString st ++ ("): " ++
        (if body = "" then "Unknown error" else body))), ?_⟩
      have he : "Web of Science" ++ (" request failed (" ++ (toString st ++ ("): " ++
          (if body = "" then "Unknown error" else body)))) =
          "Web of Science" ++ " request failed (" ++ toString st ++ "): " ++
            (if body = "" then "Unknown error" else body) := by
        simp only [String.append_assoc]
      rw [he]
      simp [expectedErrors, responseErrors]
    | ok pubs => simp [isFailedOutcome] at hf
  refine ⟨rfl, hlen, hmemP, hmemS, hmemW, fun h1 => by rw [hlen, h1], ?_⟩
  intro h1 hm
  refine ⟨hm, ?_⟩
  have hpos : 0 < (expectedErrors p s w).length := by omega
  exact List.length_pos.mp hpos

/-- Witness for claim C9 at a concrete partial failure: PubMed succeeds with one
record, Scopus rejects, Web of Science succeeds with no records. -/
theorem fetchPublications_spec_witness :
    (fetchPublications (.ok [pubA]) (.rejected "timeout") (.ok [])).errors.length = 1 ∧
    (fetchPublications (.ok [pubA]) (.rejected "timeout") (.ok [])).publications ≠ [] := by
  refine ⟨(fetchPublications_spec (.ok [pubA]) (.rejected "timeout") (.ok [])).2.2.2.2.2.1
      (by decide), ?_⟩
  exact ((fetchPublications_spec (.ok [pubA]) (.rejected "timeout")
    (.ok [])).2.2.2.2.2.2 (by decide) (by decide)).1

end ProjectScrubs
